import Mathlib

/-!
Shallow embedding of the `document_summarizer` repository
(`src/summarizer/pii.py`, `src/summarizer/extract.py`,
`src/summarizer/summarize.py`, `src/cli.py`) and proofs about it.

Text is modelled as `List Char` (Python strings index by character, and all
slicing in the source is character based).  External capabilities (Amazon
Comprehend entity detection, Amazon Textract, Bedrock) are modelled as
function parameters, so every theorem quantifies over every behaviour of
the capability.  Fallible Python code (raising exceptions) is modelled
with `Except`.
-/

namespace DocSummarizer


/-! ## Whitespace and `str.strip()` emptiness

`if not text or not text.strip()` in the source is true exactly when the
string is empty or consists only of whitespace characters.  We model the
ASCII whitespace characters stripped by CPython (space, tab, newline,
vertical tab, form feed, carriage return); the Unicode space characters
also stripped by CPython play no role in any claim. -/

def isPySpace (c : Char) : Bool :=
  c = ' ' || c = '\t' || c = '\n' || c.toNat = 11 || c.toNat = 12 || c = '\r'

/-- Python's `not s` (empty) `or not s.strip()` (whitespace only), as one predicate:
every character is whitespace (vacuously true for the empty string). -/
def isBlank (l : List Char) : Bool := l.all isPySpace

/-! ## Chunker — `_chunk_text_simple` (pii.py)

```python
def _chunk_text_simple(text, max_chars=_CHUNK_CHARS):
    result = []
    for i in range(0, len(text), max_chars):
        chunk = text[i : i + max_chars]
        result.append((chunk, i))
    return result
```
`range(0, n, step)` with `step = 0` raises `ValueError`; the recursion
below therefore produces chunks only for `maxChars > 0` (for `maxChars = 0`
it returns `[]`, a junk value no claim relies on). -/

def chunkFrom : Nat → List Char → Nat → List (List Char × Nat)
  | _, [], _ => []
  | 0, _ :: _, _ => []
  | m + 1, c :: t, i =>
      ((c :: t).take (m + 1), i) :: chunkFrom (m + 1) ((c :: t).drop (m + 1)) (i + (m + 1))
  termination_by _ l _ => l.length
  decreasing_by simp [List.length_drop]; omega

/-- Comprehend sync API limit is 5000 bytes per request (`_CHUNK_CHARS = 4000`). -/
def _CHUNK_CHARS : Nat := 4000

def _chunk_text_simple (text : List Char) (maxChars : Nat := _CHUNK_CHARS) :
    List (List Char × Nat) :=
  chunkFrom maxChars text 0

/-- UTF-8 encoded size of a character list, in bytes. -/
def utf8Len (l : List Char) : Nat := (l.map Char.utf8Size).sum

/-! ## Span merging — the merge step of `redact_pii` (pii.py)

```python
redact_ranges.sort(key=lambda r: r[0])
merged = []
for s, e in redact_ranges:
    if merged and s <= merged[-1][1]:
        merged[-1] = (merged[-1][0], max(merged[-1][1], e))
    else:
        merged.append((s, e))
```

`list.sort(key=...)` is a stable sort by the key; Mathlib's insertion sort
with the same key relation is stable, hence produces the same list.  The
loop appends to and mutates the *back* of `merged`; `mergeStep` keeps the
accumulator reversed (head = most recently emitted range) and `mergeRanges`
reverses it at the end. -/

def sortRanges (l : List (Nat × Nat)) : List (Nat × Nat) :=
  l.insertionSort (fun a b => a.1 ≤ b.1)

def mergeStep (merged : List (Nat × Nat)) (r : Nat × Nat) : List (Nat × Nat) :=
  match merged with
  | (ms, me) :: rest =>
      if r.1 ≤ me then (ms, max me r.2) :: rest else r :: (ms, me) :: rest
  | [] => [r]

def mergeRanges (l : List (Nat × Nat)) : List (Nat × Nat) :=
  ((sortRanges l).foldl mergeStep []).reverse

/-- A character index `i` lies inside the half-open range `p`. -/
def inSpan (p : Nat × Nat) (i : Nat) : Prop := p.1 ≤ i ∧ i < p.2

/-- Some range of `l` covers the character index `i`. -/
def covers (l : List (Nat × Nat)) (i : Nat) : Prop := ∃ p ∈ l, inSpan p i

instance : IsTotal (Nat × Nat) (fun a b => a.1 ≤ b.1) :=
  ⟨fun a b => Nat.le_total a.1 b.1⟩

instance : IsTrans (Nat × Nat) (fun a b => a.1 ≤ b.1) :=
  ⟨fun _ _ _ h1 h2 => le_trans h1 h2⟩

/-! ## Redactor — span application of `redact_pii` (pii.py)

```python
result = list(text)
for start, end in reversed(merged):
    result[start:end] = list(mask)
return "".join(result)
```

Python list slice assignment `result[start:end] = m` replaces the elements
at indices `start ≤ i < end` (clamping both bounds to the list length and
treating a backwards slice as the empty slice at `start`) with `m`, i.e. it
yields `result[:start] + m + result[max(start, end):]`. -/

def sliceAssign (l : List Char) (s e : Nat) (m : List Char) : List Char :=
  l.take s ++ m ++ l.drop (max s e)

def applyRedactions (text : List Char) (merged : List (Nat × Nat))
    (mask : List Char) : List Char :=
  merged.reverse.foldl (fun res p => sliceAssign res p.1 p.2 mask) text

/-- The result described by the spec: the untouched segments of the text
interleaved with one copy of the mask per span; `pos` is the index from
which the text has not yet been consumed.  Stated from the spec's words,
to be compared with `applyRedactions` (translated from the code). -/
def interleavedRedaction (text : List Char) (spans : List (Nat × Nat))
    (mask : List Char) (pos : Nat) : List Char :=
  match spans with
  | [] => text.drop pos
  | (s, e) :: rest =>
      (text.drop pos).take (s - pos) ++ mask ++ interleavedRedaction text rest mask e

/-! ### Recursion-friendly formulation of the merge loop -/

def mergeRec (cur : Nat × Nat) : List (Nat × Nat) → List (Nat × Nat)
  | [] => [cur]
  | r :: rest =>
      if r.1 ≤ cur.2 then mergeRec (cur.1, max cur.2 r.2) rest
      else cur :: mergeRec r rest

/-! ## Entity detection capability and the two PII operations (pii.py)

The Comprehend `DetectPiiEntities` call is modelled as a function from the
chunk text and the chunk's start offset (the offset stands in for the
call's identity, so distinct calls in one operation may behave
independently) to either the detected entities — each reduced to its
`(BeginOffset, EndOffset)` pair in chunk-local character coordinates — or
an error standing for a raised exception. -/

def Detector : Type := List Char → Nat → Except String (List (Nat × Nat))

/-! ### `contains_pii`

```python
if not text or not text.strip():
    return False
chunks = _chunk_text_simple(text)
for chunk, _ in chunks:
    if not chunk.strip():
        continue
    try:
        resp = client.detect_pii_entities(Text=chunk, LanguageCode=language_code)
        if resp.get("Entities"):
            return True
    except Exception:
        return True
return False
```
-/

def containsLoop (detect : Detector) : List (List Char × Nat) → Bool
  | [] => false
  | (chunk, off) :: rest =>
      if isBlank chunk then containsLoop detect rest
      else
        match detect chunk off with
        | .error _ => true
        | .ok ents => if ents.isEmpty then containsLoop detect rest else true

def contains_pii (detect : Detector) (text : List Char) : Bool :=
  if isBlank text then false
  else containsLoop detect (_chunk_text_simple text)

/-! ### `redact_pii`

```python
if not text or not text.strip():
    return text
chunks = _chunk_text_simple(text)
redact_ranges = []
for chunk, char_offset in chunks:
    if not chunk.strip():
        continue
    try:
        resp = client.detect_pii_entities(Text=chunk, LanguageCode=language_code)
        for ent in resp.get("Entities", []):
            redact_ranges.append((char_offset + ent["BeginOffset"],
                                  char_offset + ent["EndOffset"]))
    except Exception as e:
        raise RuntimeError(...) from e
```
then the sort/merge modelled by `mergeRanges` and the span application
modelled by `applyRedactions`. -/

def redactFailMsg : String :=
  "PII redaction failed (Comprehend error); document not sent to Bedrock."

def gatherRanges (detect : Detector) : List (List Char × Nat) → Except String (List (Nat × Nat))
  | [] => .ok []
  | (chunk, off) :: rest =>
      if isBlank chunk then gatherRanges detect rest
      else
        match detect chunk off with
        | .error _ => .error redactFailMsg
        | .ok ents =>
            match gatherRanges detect rest with
            | .error m => .error m
            | .ok rs => .ok (ents.map (fun q => (off + q.1, off + q.2)) ++ rs)

def redact_pii (detect : Detector) (text : List Char) (mask : List Char) :
    Except String (List Char) :=
  if isBlank text then .ok text
  else
    match gatherRanges detect (_chunk_text_simple text) with
    | .error m => .error m
    | .ok ranges => .ok (applyRedactions text (mergeRanges ranges) mask)

/-- A detector that always raises (a Comprehend call that always fails). -/
def alwaysErr : Detector := fun _ _ => .error "service unreachable"

/-! ## Textract async poller — `extract_text_from_pdf_s3` (extract.py)

```python
deadline = time.monotonic() + poll_timeout
while time.monotonic() < deadline:
    result = client.get_document_text_detection(JobId=job_id)
    status = result["JobStatus"]
    if status == "SUCCEEDED":
        blocks = result.get("Blocks", [])
        while result.get("NextToken"):
            result = client.get_document_text_detection(JobId=job_id, NextToken=result["NextToken"])
            blocks.extend(result.get("Blocks", []))
        return _blocks_to_text(blocks)
    if status == "FAILED":
        raise RuntimeError(f"Textract job {job_id} failed: ...")
    time.sleep(poll_interval)
raise TimeoutError(f"Textract job {job_id} did not complete within {poll_timeout}s")
```

Real time is abstracted: `getPoll k` is the response of the `k`-th
token-less `get_document_text_detection` call, and `fuel` is the number of
poll iterations the deadline still admits.  `fetchPage tok` is the
response to a call carrying `NextToken=tok`; CPython truthiness makes an
empty-string token count as absent.  `pageFuel` bounds the pagination
loop, whose non-termination (an endless token chain) is modelled by the
overall result `none`. -/

structure TBlock where
  blockType : String
  text : Option String
deriving DecidableEq

structure TResult where
  jobStatus : String
  blocks : List TBlock
  nextToken : Option String
  statusMessage : Option String
deriving DecidableEq

/-- Model of `_blocks_to_text` (extract.py): the `Text` of every `LINE` block with a
truthy (present and non-empty) text, joined with newlines. -/
def _blocks_to_text (blocks : List TBlock) : String :=
  String.intercalate "\n"
    (blocks.filterMap fun b =>
      match b.text with
      | some t => if b.blockType = "LINE" ∧ t ≠ "" then some t else none
      | none => none)

/-- The two ways the poller raises: `TimeoutError` when the deadline
elapses, `RuntimeError` when the provider reports the job `FAILED`
(carrying `StatusMessage`, defaulted to `"unknown"`). -/
inductive ExtractErr
  | timedOut (jobId : String)
  | jobFailed (jobId : String) (statusMessage : String)
deriving DecidableEq

/-- The `while result.get("NextToken")` pagination loop. -/
def collectPages (fetchPage : String → TResult) :
    Nat → List TBlock → Option String → Option (List TBlock)
  | _, blocks, none => some blocks
  | fuel, blocks, some tok =>
      if tok = "" then some blocks
      else
        match fuel with
        | 0 => none
        | fuel + 1 =>
            collectPages fetchPage fuel (blocks ++ (fetchPage tok).blocks)
              (fetchPage tok).nextToken

/-- The polling loop; `k` is the index of the next poll call. -/
def pollLoop (jobId : String) (getPoll : Nat → TResult)
    (fetchPage : String → TResult) (pageFuel : Nat) :
    Nat → Nat → Option (Except ExtractErr String)
  | _, 0 => some (.error (.timedOut jobId))
  | k, fuel + 1 =>
      if (getPoll k).jobStatus = "SUCCEEDED" then
        match collectPages fetchPage pageFuel (getPoll k).blocks
            (getPoll k).nextToken with
        | some blocks => some (.ok (_blocks_to_text blocks))
        | none => none
      else if (getPoll k).jobStatus = "FAILED" then
        some (.error (.jobFailed jobId ((getPoll k).statusMessage.getD "unknown")))
      else
        pollLoop jobId getPoll fetchPage pageFuel (k + 1) fuel

def extract_text_from_pdf_s3 (jobId : String) (getPoll : Nat → TResult)
    (fetchPage : String → TResult) (pageFuel fuel : Nat) :
    Option (Except ExtractErr String) :=
  pollLoop jobId getPoll fetchPage pageFuel 0 fuel

/-- The token chain starting from an optional continuation token is finite
and yields the given list of pages (each a block list), in order. -/
inductive TokenChain (fetchPage : String → TResult) :
    Option String → List (List TBlock) → Prop
  | stop : TokenChain fetchPage none []
  | empty : TokenChain fetchPage (some "") []
  | cons (tok : String) (pages : List (List TBlock)) (hne : tok ≠ "")
      (h : TokenChain fetchPage (fetchPage tok).nextToken pages) :
      TokenChain fetchPage (some tok) ((fetchPage tok).blocks :: pages)

/-- A job-status capability that always reports the job still in progress. -/
def inProgressPoll : Nat → TResult := fun _ =>
  { jobStatus := "IN_PROGRESS", blocks := [], nextToken := none,
    statusMessage := none }

/-- A page-fetch capability returning no further pages. -/
def noPages : String → TResult := fun _ =>
  { jobStatus := "SUCCEEDED", blocks := [], nextToken := none,
    statusMessage := none }

def demoBlock (s : String) : TBlock := { blockType := "LINE", text := some s }

/-- A status sequence: in progress twice, then succeeded with a first page
and a continuation token. -/
def scenarioPoll : Nat → TResult := fun k =>
  if k < 2 then
    { jobStatus := "IN_PROGRESS", blocks := [], nextToken := none,
      statusMessage := none }
  else
    { jobStatus := "SUCCEEDED", blocks := [demoBlock "page one"],
      nextToken := some "tok-2", statusMessage := none }

/-- The second (and final) result page. -/
def scenarioFetch : String → TResult := fun _ =>
  { jobStatus := "SUCCEEDED", blocks := [demoBlock "page two"],
    nextToken := none, statusMessage := none }

/-! ## `summarize_text` (summarize.py) and the CLI error handling (cli.py)

```python
client = _get_client(region_name=region_name)
if not text or not text.strip():
    return ""
if pii_mode == "block":
    if contains_pii(text, ...):
        raise PIIDetectedError(...)
elif pii_mode == "redact":
    text = redact_pii(text, ..., mask=pii_mask)
response = client.converse(modelId=..., messages=[{"role": "user", "content":
    [{"text": "Summarize the following document concisely. ...\n\n" + text}]}], ...)
return "".join(block.get("text", "") for block in parts if block.get("text"))
```

The Bedrock Converse call is a parameter `converse` from the user text to
the response content blocks; the `RuntimeError` raised by `redact_pii`
propagates uncaught through `summarize_text`.  In `cli.py` the
`PIIDetectedError` is caught (`print`, then `sys.exit(1)`); every other
exception propagates out of `main()`, and an unhandled exception
terminates the CPython interpreter with exit status 1. -/

inductive SummErr
  | piiDetected
  | redactionFailed (msg : String)
deriving DecidableEq

/-- The Converse response `output.message.content`: blocks with an
optional `text` field. -/
structure ConverseResponse where
  parts : List (Option String)

/-- Python's `"".join(block.get("text", "") for block in parts if block.get("text"))`. -/
def extractOutput (r : ConverseResponse) : String :=
  String.join (r.parts.filterMap fun p =>
    match p with
    | some t => if t ≠ "" then some t else none
    | none => none)

def summaryPrompt : String :=
  "Summarize the following document concisely. Preserve key facts and conclusions. Do not add commentary or meta text.\n\n"

def summarize_text (detect : Detector)
    (converse : List Char → ConverseResponse)
    (piiMode : String) (mask text : List Char) :
    Except SummErr String :=
  if isBlank text then .ok ""
  else if piiMode = "block" then
    if contains_pii detect text then .error .piiDetected
    else .ok (extractOutput (converse (summaryPrompt.toList ++ text)))
  else if piiMode = "redact" then
    match redact_pii detect text mask with
    | .error m => .error (.redactionFailed m)
    | .ok redacted => .ok (extractOutput (converse (summaryPrompt.toList ++ redacted)))
  else .ok (extractOutput (converse (summaryPrompt.toList ++ text)))

/-- Process exit code of `cli.py`: 0 on success; `PIIDetectedError` is
caught and exits via `sys.exit(1)`; any other exception is unhandled and
the CPython interpreter exits with status 1. -/
def cli_exit_code (r : Except SummErr String) : Nat :=
  match r with
  | .ok _ => 0
  | .error .piiDetected => 1
  | .error (.redactionFailed _) => 1

/-- A summarization capability producing no content blocks. -/
def silentConverse : List Char → ConverseResponse := fun _ => ⟨[]⟩

/-- A detector that reports one entity in every chunk. -/
def alwaysPII : Detector := fun _ _ => .ok [(0, 1)]

/-! ## Theorems -/

/-! ### Chunker lemmas -/

theorem chunkFrom_mem_take (m : Nat) (t : List Char) (i : Nat) :
    ∀ p ∈ chunkFrom m t i, i ≤ p.2 ∧ p.1 = (t.drop (p.2 - i)).take m := by
  induction m, t, i using chunkFrom.induct with
  | case1 m i => intro p hp; simp [chunkFrom] at hp
  | case2 c t i => intro p hp; simp [chunkFrom] at hp
  | case3 m c t i ih =>
      intro p hp
      rw [chunkFrom] at hp
      rcases List.mem_cons.mp hp with h | h
      · subst h; simp
      · obtain ⟨ih1, ih2⟩ := ih p h
        refine ⟨by omega, ?_⟩
        have hidx : m + 1 + (p.2 - (i + (m + 1))) = p.2 - i := by omega
        rw [ih2, List.drop_drop, hidx]

theorem chunkFrom_join (m : Nat) (t : List Char) (i : Nat) (hm : 0 < m) :
    ((chunkFrom m t i).map Prod.fst).flatten = t := by
  induction m, t, i using chunkFrom.induct with
  | case1 m i => simp [chunkFrom]
  | case2 c t i => omega
  | case3 m c t i ih =>
      rw [chunkFrom]
      simp only [List.map_cons, List.flatten_cons]
      rw [ih (Nat.succ_pos m)]
      exact List.take_append_drop _ _

theorem chunkFrom_len_le (m : Nat) (t : List Char) (i : Nat) :
    ∀ p ∈ chunkFrom m t i, p.1.length ≤ m := by
  intro p hp
  have h := chunkFrom_mem_take m t i p hp
  rw [h.2]
  exact (List.length_take _ _).trans_le (min_le_left _ _)

theorem utf8Len_single (l : List Char) (h : ∀ c ∈ l, Char.utf8Size c = 1) :
    utf8Len l = l.length := by
  induction l with
  | nil => rfl
  | cons c t ih =>
      simp only [utf8Len, List.map_cons, List.sum_cons, List.length_cons] at *
      rw [h c (List.mem_cons_self c t), ih (fun x hx => h x (List.mem_cons_of_mem c hx))]
      omega

theorem utf8Len_replicate (n : Nat) (c : Char) :
    utf8Len (List.replicate n c) = n * c.utf8Size := by
  induction n with
  | zero => simp [utf8Len]
  | succ k ih =>
      simp only [List.replicate_succ, utf8Len, List.map_cons, List.sum_cons] at *
      rw [ih]; ring

theorem chunk_single (t : List Char) (m : Nat) (h0 : t ≠ []) (h1 : t.length ≤ m + 1) :
    _chunk_text_simple t (m + 1) = [(t, 0)] := by
  match t, h0 with
  | c :: t, _ =>
    rw [_chunk_text_simple, chunkFrom]
    rw [List.take_of_length_le h1, List.drop_of_length_le h1, chunkFrom]

/-! ### Claim C6 — chunk reconstruction and offset correctness -/

/-- C6: for every text and every `maxChars > 0`, concatenating the chunk texts
of `_chunk_text_simple` in order reconstructs the original text exactly, and
each chunk's text equals `text[startOffset : startOffset + len(chunk)]`. -/
theorem chunk_reconstruction (text : List Char) (maxChars : Nat) (hm : 0 < maxChars) :
    ((_chunk_text_simple text maxChars).map Prod.fst).flatten = text ∧
      ∀ p ∈ _chunk_text_simple text maxChars,
        p.1 = (text.drop p.2).take p.1.length := by
  refine ⟨chunkFrom_join maxChars text 0 hm, ?_⟩
  intro p hp
  have h := (chunkFrom_mem_take maxChars text 0 p hp).2
  rw [Nat.sub_zero] at h
  rw [h, List.length_take, List.take_eq_take]
  omega

theorem chunk_reconstruction_witness :
    0 < 2 ∧
      (((_chunk_text_simple ['a', 'b', 'c'] 2).map Prod.fst).flatten = ['a', 'b', 'c'] ∧
        ∀ p ∈ _chunk_text_simple ['a', 'b', 'c'] 2,
          p.1 = ((['a', 'b', 'c'] : List Char).drop p.2).take p.1.length) :=
  ⟨by decide, chunk_reconstruction ['a', 'b', 'c'] 2 (by decide)⟩

/-! ### Claim C2 — chunk size bound

The character-count bound holds.  The byte-size part of the claim is false
(see `chunk_byte_limit_counterexample`): the code bounds the number of
*characters*, so a chunk of multi-byte characters can exceed 5000 UTF-8
bytes.  The amended byte bound holds for single-byte (ASCII) characters. -/

/-- C2 (amended): every chunk contains at most `maxChars` characters, and
whenever every character of the chunk has a one-byte UTF-8 encoding, the
chunk's UTF-8 encoding has at most `maxChars` bytes (with the default
`maxChars = 4000`, below the detector's 5000-byte limit).  For text with
multi-byte characters the byte limit can be exceeded. -/
theorem chunk_char_bound (text : List Char) (maxChars : Nat) (_hm : 0 < maxChars) :
    ∀ p ∈ _chunk_text_simple text maxChars,
      p.1.length ≤ maxChars ∧
        ((∀ c ∈ p.1, Char.utf8Size c = 1) → utf8Len p.1 ≤ maxChars) := by
  intro p hp
  have h := chunkFrom_len_le maxChars text 0 p hp
  exact ⟨h, fun hc => (utf8Len_single p.1 hc).le.trans h⟩

theorem chunk_char_bound_witness :
    0 < 2 ∧
      ((['a', 'b'], 0).1.length ≤ 2 ∧
        ((∀ c ∈ (['a', 'b'], 0).1, Char.utf8Size c = 1) → utf8Len (['a', 'b'], 0).1 ≤ 2)) :=
  ⟨by decide,
    chunk_char_bound ['a', 'b', 'c'] 2 (by decide) (['a', 'b'], 0)
      (by simp [_chunk_text_simple, chunkFrom])⟩

/-- C2 counterexample: with the default `maxChars = 4000`, a text of 1667
euro signs (each 3 UTF-8 bytes) is returned by the chunker as a single chunk
whose UTF-8 encoding has 5001 bytes, which exceeds the detector's 5000-byte
service limit: the character bound is not conservative for multi-byte text. -/
theorem chunk_byte_limit_counterexample :
    ∃ p ∈ _chunk_text_simple (List.replicate 1667 '€') _CHUNK_CHARS,
      5000 < utf8Len p.1 := by
  refine ⟨(List.replicate 1667 '€', 0), ?_, ?_⟩
  · rw [show _CHUNK_CHARS = 3999 + 1 from rfl,
      chunk_single _ 3999
        (List.length_pos.mp (by rw [List.length_replicate]; norm_num))
        (by rw [List.length_replicate]; norm_num)]
    exact List.mem_singleton_self _
  · rw [utf8Len_replicate]
    have h3 : Char.utf8Size '€' = 3 := by decide
    rw [h3]
    norm_num

theorem applyRedactions_cons (text : List Char) (p : Nat × Nat)
    (rest : List (Nat × Nat)) (mask : List Char) :
    applyRedactions text (p :: rest) mask =
      sliceAssign (applyRedactions text rest mask) p.1 p.2 mask := by
  rw [applyRedactions, List.reverse_cons, List.foldl_append, List.foldl_cons,
    List.foldl_nil]
  rfl

theorem applyRedactions_eq_interleaved (spans : List (Nat × Nat)) :
    ∀ (text mask : List Char) (pos : Nat),
      List.Pairwise (fun a b : Nat × Nat => a.2 ≤ b.1) spans →
      (∀ p ∈ spans, p.1 ≤ p.2 ∧ p.2 ≤ text.length) →
      (∀ p ∈ spans, pos ≤ p.1) →
      applyRedactions text spans mask =
        text.take pos ++ interleavedRedaction text spans mask pos := by
  induction spans with
  | nil =>
      intro text mask pos _ _ _
      rw [interleavedRedaction]
      rw [show applyRedactions text [] mask = text from rfl]
      exact (List.take_append_drop pos text).symm
  | cons p rest ih =>
      intro text mask pos hpw hb hlb
      obtain ⟨s, e⟩ := p
      have hse : s ≤ e := (hb (s, e) (List.mem_cons_self _ _)).1
      have hel : e ≤ text.length := (hb (s, e) (List.mem_cons_self _ _)).2
      have hpos : pos ≤ s := hlb (s, e) (List.mem_cons_self _ _)
      rw [applyRedactions_cons]
      have hrest : applyRedactions text rest mask =
          text.take e ++ interleavedRedaction text rest mask e := by
        refine ih text mask e (List.pairwise_cons.mp hpw).2
          (fun q hq => hb q (List.mem_cons_of_mem _ hq))
          (fun q hq => (List.pairwise_cons.mp hpw).1 q hq)
      rw [hrest, sliceAssign, Nat.max_eq_right hse]
      rw [List.take_append_of_le_length (by rw [List.length_take]; omega)]
      rw [List.take_take, Nat.min_eq_left hse]
      rw [List.drop_append_of_le_length (by rw [List.length_take]; omega)]
      rw [List.drop_of_length_le (le_of_eq (by rw [List.length_take]; omega))]
      rw [List.nil_append, interleavedRedaction]
      have hsplit : text.take s = text.take pos ++ (text.drop pos).take (s - pos) := by
        rw [← List.take_add]
        congr 1
        omega
      rw [hsplit]
      simp [List.append_assoc]

/-! ### Claim C4 — right-to-left span application is offset-shift safe -/

/-- C4: for every text, mask, and sorted pairwise-disjoint span set lying
within the text's bounds, applying the spans rightmost-first replaces
exactly `text[start:end]` with the mask for each span — the result equals
the untouched segments of the text interleaved with one mask per span,
whatever the mask's length — and an empty span set returns the text
unchanged. -/
theorem redactor_correct (text mask : List Char) (spans : List (Nat × Nat))
    (h1 : List.Pairwise (fun a b : Nat × Nat => a.2 ≤ b.1) spans)
    (h2 : ∀ p ∈ spans, p.1 ≤ p.2 ∧ p.2 ≤ text.length) :
    applyRedactions text spans mask = interleavedRedaction text spans mask 0 ∧
      applyRedactions text [] mask = text := by
  refine ⟨?_, rfl⟩
  have h := applyRedactions_eq_interleaved spans text mask 0 h1 h2
    (fun _ _ => Nat.zero_le _)
  simpa using h

theorem redactor_correct_witness :
    List.Pairwise (fun a b : Nat × Nat => a.2 ≤ b.1) [((5 : Nat), (13 : Nat))] ∧
      (∀ p ∈ [((5 : Nat), (13 : Nat))],
        p.1 ≤ p.2 ∧ p.2 ≤ ("Call 555-1234 now".toList).length) ∧
      (applyRedactions ("Call 555-1234 now".toList) [(5, 13)]
          ("[REDACTED]".toList) =
        interleavedRedaction ("Call 555-1234 now".toList) [(5, 13)]
          ("[REDACTED]".toList) 0 ∧
        applyRedactions ("Call 555-1234 now".toList) [] ("[REDACTED]".toList) =
          "Call 555-1234 now".toList) :=
  ⟨by decide, by decide,
    redactor_correct ("Call 555-1234 now".toList) ("[REDACTED]".toList)
      [(5, 13)] (by decide) (by decide)⟩

theorem foldl_mergeStep_eq (xs : List (Nat × Nat)) :
    ∀ (cur : Nat × Nat) (acc : List (Nat × Nat)),
      (xs.foldl mergeStep (cur :: acc)).reverse = acc.reverse ++ mergeRec cur xs := by
  induction xs with
  | nil => intro cur acc; simp [mergeRec]
  | cons r rest ih =>
      intro cur acc
      obtain ⟨cs, ce⟩ := cur
      rw [List.foldl_cons]
      by_cases h : r.1 ≤ ce
      · rw [show mergeStep ((cs, ce) :: acc) r = (cs, max ce r.2) :: acc from by
          simp [mergeStep, h]]
        rw [ih, mergeRec, if_pos h]
      · rw [show mergeStep ((cs, ce) :: acc) r = r :: (cs, ce) :: acc from by
          simp [mergeStep, h]]
        rw [ih, mergeRec, if_neg h]
        simp

theorem mergeRanges_eq_mergeRec (l : List (Nat × Nat)) :
    mergeRanges l =
      match sortRanges l with
      | [] => []
      | x :: xs => mergeRec x xs := by
  rw [mergeRanges]
  cases hs : sortRanges l with
  | nil => rfl
  | cons x xs =>
      rw [List.foldl_cons, show mergeStep [] x = [x] from rfl]
      simpa using foldl_mergeStep_eq xs x []

/-! ### Properties of the merge loop -/

theorem mergeRec_start_lb (cur : Nat × Nat) (xs : List (Nat × Nat)) :
    List.Pairwise (fun a b : Nat × Nat => a.1 ≤ b.1) (cur :: xs) →
      ∀ q ∈ mergeRec cur xs, cur.1 ≤ q.1 := by
  induction cur, xs using mergeRec.induct with
  | case1 cur =>
      intro _ q hq
      rw [mergeRec] at hq
      simp only [List.mem_singleton] at hq
      subst hq; exact le_refl _
  | case2 cur r rest h ih =>
      intro hp q hq
      rw [mergeRec, if_pos h] at hq
      have hp' : List.Pairwise (fun a b : Nat × Nat => a.1 ≤ b.1)
          ((cur.1, max cur.2 r.2) :: rest) := by
        rcases List.pairwise_cons.mp hp with ⟨h1, h2⟩
        exact List.pairwise_cons.mpr
          ⟨fun b hb => h1 b (List.mem_cons_of_mem r hb),
            (List.pairwise_cons.mp h2).2⟩
      exact ih hp' q hq
  | case3 cur r rest h ih =>
      intro hp q hq
      rw [mergeRec, if_neg h] at hq
      rcases List.mem_cons.mp hq with h' | h'
      · subst h'; exact le_refl _
      · rcases List.pairwise_cons.mp hp with ⟨h1, h2⟩
        exact (h1 r (List.mem_cons_self r rest)).trans (ih h2 q h')

theorem mergeRec_bounds (cur : Nat × Nat) (xs : List (Nat × Nat)) :
    (∀ p ∈ cur :: xs, p.1 < p.2) → ∀ q ∈ mergeRec cur xs, q.1 < q.2 := by
  induction cur, xs using mergeRec.induct with
  | case1 cur =>
      intro he q hq
      rw [mergeRec] at hq
      simp only [List.mem_singleton] at hq
      rw [hq]; exact he cur (List.mem_cons_self _ _)
  | case2 cur r rest h ih =>
      intro he q hq
      rw [mergeRec, if_pos h] at hq
      refine ih (fun p hp => ?_) q hq
      rcases List.mem_cons.mp hp with h' | h'
      · subst h'
        have := he cur (List.mem_cons_self _ _)
        show cur.1 < max cur.2 r.2
        omega
      · exact he p (List.mem_cons_of_mem _ (List.mem_cons_of_mem _ h'))
  | case3 cur r rest h ih =>
      intro he q hq
      rw [mergeRec, if_neg h] at hq
      rcases List.mem_cons.mp hq with h' | h'
      · rw [h']; exact he cur (List.mem_cons_self _ _)
      · exact ih (fun p hp => he p (List.mem_cons_of_mem _ hp)) q h'

theorem mergeRec_separated (cur : Nat × Nat) (xs : List (Nat × Nat)) :
    List.Pairwise (fun a b : Nat × Nat => a.1 ≤ b.1) (cur :: xs) →
      List.Pairwise (fun a b : Nat × Nat => a.2 < b.1) (mergeRec cur xs) := by
  induction cur, xs using mergeRec.induct with
  | case1 cur => intro _; rw [mergeRec]; exact List.pairwise_singleton _ _
  | case2 cur r rest h ih =>
      intro hp
      rw [mergeRec, if_pos h]
      refine ih ?_
      rcases List.pairwise_cons.mp hp with ⟨h1, h2⟩
      exact List.pairwise_cons.mpr
        ⟨fun b hb => h1 b (List.mem_cons_of_mem r hb),
          (List.pairwise_cons.mp h2).2⟩
  | case3 cur r rest h ih =>
      intro hp
      rw [mergeRec, if_neg h]
      rcases List.pairwise_cons.mp hp with ⟨h1, h2⟩
      refine List.pairwise_cons.mpr ⟨fun q hq => ?_, ih h2⟩
      have := mergeRec_start_lb r rest h2 q hq
      omega

theorem mergeRec_covers (cur : Nat × Nat) (xs : List (Nat × Nat)) :
    List.Pairwise (fun a b : Nat × Nat => a.1 ≤ b.1) (cur :: xs) →
      ∀ i, covers (mergeRec cur xs) i ↔ (inSpan cur i ∨ covers xs i) := by
  induction cur, xs using mergeRec.induct with
  | case1 cur =>
      intro _ i
      rw [mergeRec]
      simp [covers]
  | case2 cur r rest h ih =>
      intro hp i
      rw [mergeRec, if_pos h]
      rcases List.pairwise_cons.mp hp with ⟨h1, h2⟩
      have hcr : cur.1 ≤ r.1 := h1 r (List.mem_cons_self r rest)
      have hp' : List.Pairwise (fun a b : Nat × Nat => a.1 ≤ b.1)
          ((cur.1, max cur.2 r.2) :: rest) :=
        List.pairwise_cons.mpr
          ⟨fun b hb => h1 b (List.mem_cons_of_mem r hb),
            (List.pairwise_cons.mp h2).2⟩
      rw [ih hp' i]
      have hiff : inSpan (cur.1, max cur.2 r.2) i ↔ (inSpan cur i ∨ inSpan r i) := by
        simp only [inSpan, lt_max_iff]
        omega
      rw [hiff,
        show covers (r :: rest) i ↔ (inSpan r i ∨ covers rest i) from by simp [covers]]
      exact or_assoc
  | case3 cur r rest h ih =>
      intro hp i
      rw [mergeRec, if_neg h]
      rcases List.pairwise_cons.mp hp with ⟨h1, h2⟩
      rw [show covers (cur :: mergeRec r rest) i ↔
            (inSpan cur i ∨ covers (mergeRec r rest) i) from by simp [covers],
          ih h2 i,
          show covers (r :: rest) i ↔ (inSpan r i ∨ covers rest i) from by simp [covers]]

/-! ### Claim C3 — merge correctness -/

/-- C3: the merge step of `redact_pii` (sort ascending by start, then extend
the running range via `end = max(end, next.end)` whenever
`next.start <= end`) returns, for every input list of ranges each with
`start < end`, a list that is sorted strictly ascending by start, pairwise
non-overlapping and non-adjacent (`a.end < b.start` for every earlier `a`
and later `b`), and that covers exactly the character indices covered by
the input ranges. -/
theorem merge_correct (l : List (Nat × Nat)) (hl : ∀ p ∈ l, p.1 < p.2) :
    List.Pairwise (fun a b : Nat × Nat => a.1 < b.1) (mergeRanges l) ∧
      List.Pairwise (fun a b : Nat × Nat => a.2 < b.1) (mergeRanges l) ∧
      ∀ i, covers (mergeRanges l) i ↔ covers l i := by
  have hperm := List.perm_insertionSort (fun a b : Nat × Nat => a.1 ≤ b.1) l
  have hsorted := List.sorted_insertionSort (fun a b : Nat × Nat => a.1 ≤ b.1) l
  rw [mergeRanges_eq_mergeRec l]
  cases hs : sortRanges l with
  | nil =>
      rw [sortRanges] at hs
      have : l = [] := (hs ▸ hperm).nil_eq.symm
      subst this
      refine ⟨List.Pairwise.nil, List.Pairwise.nil, fun i => ?_⟩
      simp [covers]
  | cons x xs =>
      rw [sortRanges] at hs
      rw [hs] at hperm hsorted
      have hsd : List.Pairwise (fun a b : Nat × Nat => a.1 ≤ b.1) (x :: xs) := hsorted
      have hb : ∀ p ∈ x :: xs, p.1 < p.2 := fun p hp => hl p (hperm.mem_iff.mp hp)
      have hsep := mergeRec_separated x xs hsd
      have hbnd := mergeRec_bounds x xs hb
      refine ⟨?_, hsep, fun i => ?_⟩
      · exact hsep.imp_of_mem (fun {a b} ha hb' hab => by
          have := hbnd a ha
          omega)
      · rw [mergeRec_covers x xs hsd i,
          show (inSpan x i ∨ covers xs i) ↔ covers (x :: xs) i from by simp [covers]]
        constructor
        · rintro ⟨q, hq, hqi⟩; exact ⟨q, hperm.mem_iff.mp hq, hqi⟩
        · rintro ⟨q, hq, hqi⟩; exact ⟨q, hperm.mem_iff.mpr hq, hqi⟩

theorem merge_correct_witness :
    (∀ p ∈ [((5 : Nat), (10 : Nat)), (8, 15), (20, 25)], p.1 < p.2) ∧
      (List.Pairwise (fun a b : Nat × Nat => a.1 < b.1)
          (mergeRanges [(5, 10), (8, 15), (20, 25)]) ∧
        List.Pairwise (fun a b : Nat × Nat => a.2 < b.1)
          (mergeRanges [(5, 10), (8, 15), (20, 25)]) ∧
        ∀ i, covers (mergeRanges [(5, 10), (8, 15), (20, 25)]) i ↔
          covers [(5, 10), (8, 15), (20, 25)] i) :=
  ⟨by decide, merge_correct [(5, 10), (8, 15), (20, 25)] (by decide)⟩

/-! ### Error-path lemmas -/

theorem gatherRanges_error (detect : Detector) (chunks : List (List Char × Nat))
    (h : ∃ p ∈ chunks, ¬isBlank p.1 ∧ ∃ m, detect p.1 p.2 = .error m) :
    gatherRanges detect chunks = .error redactFailMsg := by
  induction chunks with
  | nil => obtain ⟨p, hp, _⟩ := h; simp at hp
  | cons q rest ih =>
      obtain ⟨p, hp, hnb, m, herr⟩ := h
      obtain ⟨qc, qo⟩ := q
      rcases List.mem_cons.mp hp with h' | h'
      · subst h'
        rw [gatherRanges, if_neg hnb, herr]
      · rw [gatherRanges]
        by_cases hb : isBlank qc
        · rw [if_pos hb]
          exact ih ⟨p, h', hnb, m, herr⟩
        · rw [if_neg hb]
          cases hd : detect qc qo with
          | error m' => rfl
          | ok ents => rw [ih ⟨p, h', hnb, m, herr⟩]

theorem containsLoop_error (detect : Detector) (chunks : List (List Char × Nat))
    (h : ∃ p ∈ chunks, ¬isBlank p.1 ∧ ∃ m, detect p.1 p.2 = .error m) :
    containsLoop detect chunks = true := by
  induction chunks with
  | nil => obtain ⟨p, hp, _⟩ := h; simp at hp
  | cons q rest ih =>
      obtain ⟨p, hp, hnb, m, herr⟩ := h
      obtain ⟨qc, qo⟩ := q
      rcases List.mem_cons.mp hp with h' | h'
      · subst h'
        rw [containsLoop, if_neg hnb, herr]
      · rw [containsLoop]
        by_cases hb : isBlank qc
        · rw [if_pos hb]
          exact ih ⟨p, h', hnb, m, herr⟩
        · rw [if_neg hb]
          cases hd : detect qc qo with
          | error m' => rfl
          | ok ents =>
              show (if ents.isEmpty = true then containsLoop detect rest else true) = true
              by_cases he : ents.isEmpty = true
              · rw [if_pos he]
                exact ih ⟨p, h', hnb, m, herr⟩
              · rw [if_neg he]

/-- A chunk with a non-whitespace character makes the whole text non-blank. -/
theorem text_not_blank_of_chunk (text : List Char) (p : List Char × Nat)
    (hp : p ∈ _chunk_text_simple text) (hnb : ¬isBlank p.1) : ¬isBlank text := by
  intro hblank
  apply hnb
  have hjoin : ((_chunk_text_simple text).map Prod.fst).flatten = text :=
    chunkFrom_join _CHUNK_CHARS text 0 (by norm_num [_CHUNK_CHARS])
  rw [isBlank, List.all_eq_true]
  intro c hc
  have hctext : c ∈ text := by
    rw [← hjoin]
    exact List.mem_flatten.mpr ⟨p.1, List.mem_map_of_mem Prod.fst hp, hc⟩
  exact (List.all_eq_true.mp hblank) c hctext

/-! ### Claim C1 — redaction fails closed on detector errors -/

/-- C1: for every text and every behaviour of the entity-detection
capability, if the detector call raises on any (non-blank) chunk of the
redaction operation, `redact_pii` aborts the whole operation with the
fail-closed `RuntimeError` and returns no text. -/
theorem redact_fail_closed (detect : Detector) (text mask : List Char)
    (h : ∃ p ∈ _chunk_text_simple text,
      ¬isBlank p.1 ∧ ∃ m, detect p.1 p.2 = .error m) :
    redact_pii detect text mask = .error redactFailMsg := by
  obtain ⟨p, hp, hnb, m, herr⟩ := h
  have htext : ¬isBlank text = true := text_not_blank_of_chunk text p hp hnb
  rw [redact_pii, if_neg htext, gatherRanges_error detect _ ⟨p, hp, hnb, m, herr⟩]

theorem redact_fail_closed_witness :
    (∃ p ∈ _chunk_text_simple "hello".toList,
        ¬isBlank p.1 ∧ ∃ m, alwaysErr p.1 p.2 = .error m) ∧
      redact_pii alwaysErr "hello".toList "[REDACTED]".toList =
        .error redactFailMsg := by
  have hc : _chunk_text_simple "hello".toList = [("hello".toList, 0)] :=
    chunk_single "hello".toList 3999 (by decide) (by decide)
  have hyp : ∃ p ∈ _chunk_text_simple "hello".toList,
      ¬isBlank p.1 ∧ ∃ m, alwaysErr p.1 p.2 = .error m := by
    rw [hc]
    exact ⟨("hello".toList, 0), List.mem_singleton_self _, by decide,
      "service unreachable", rfl⟩
  exact ⟨hyp, redact_fail_closed alwaysErr "hello".toList "[REDACTED]".toList hyp⟩

/-! ### Claim C5 — presence check fails open on detector errors -/

/-- C5: for every text and every behaviour of the entity-detection
capability, if the detector call raises on any (non-blank) chunk of the
presence check, `contains_pii` recovers locally and returns `true` (fail
open); no error is propagated — `contains_pii` totally returns a boolean. -/
theorem contains_pii_fail_open (detect : Detector) (text : List Char)
    (h : ∃ p ∈ _chunk_text_simple text,
      ¬isBlank p.1 ∧ ∃ m, detect p.1 p.2 = .error m) :
    contains_pii detect text = true := by
  obtain ⟨p, hp, hnb, m, herr⟩ := h
  have htext : ¬isBlank text = true := text_not_blank_of_chunk text p hp hnb
  rw [contains_pii, if_neg htext, containsLoop_error detect _ ⟨p, hp, hnb, m, herr⟩]

theorem contains_pii_fail_open_witness :
    (∃ p ∈ _chunk_text_simple "hello".toList,
        ¬isBlank p.1 ∧ ∃ m, alwaysErr p.1 p.2 = .error m) ∧
      contains_pii alwaysErr "hello".toList = true := by
  have hc : _chunk_text_simple "hello".toList = [("hello".toList, 0)] :=
    chunk_single "hello".toList 3999 (by decide) (by decide)
  have hyp : ∃ p ∈ _chunk_text_simple "hello".toList,
      ¬isBlank p.1 ∧ ∃ m, alwaysErr p.1 p.2 = .error m := by
    rw [hc]
    exact ⟨("hello".toList, 0), List.mem_singleton_self _, by decide,
      "service unreachable", rfl⟩
  exact ⟨hyp, contains_pii_fail_open alwaysErr "hello".toList hyp⟩

theorem collectPages_of_chain (fetchPage : String → TResult)
    (tok : Option String) (pages : List (List TBlock))
    (h : TokenChain fetchPage tok pages) :
    ∀ (fuel : Nat) (acc : List TBlock), pages.length ≤ fuel →
      collectPages fetchPage fuel acc tok = some (acc ++ pages.flatten) := by
  induction h with
  | stop => intro fuel acc _; simp [collectPages]
  | empty =>
      intro fuel acc _
      rw [collectPages.eq_def]
      simp
  | cons tok pages hne hch ih =>
      intro fuel acc hlen
      match fuel, hlen with
      | f + 1, hlen =>
        rw [collectPages, if_neg hne]
        rw [ih f (acc ++ (fetchPage tok).blocks) (by simp at hlen ⊢; omega)]
        simp

theorem pollLoop_timeout (jobId : String) (getPoll : Nat → TResult)
    (fetchPage : String → TResult) (pageFuel : Nat) :
    ∀ (fuel k : Nat),
      (∀ d < fuel, (getPoll (k + d)).jobStatus ≠ "SUCCEEDED" ∧
        (getPoll (k + d)).jobStatus ≠ "FAILED") →
      pollLoop jobId getPoll fetchPage pageFuel k fuel =
        some (.error (.timedOut jobId)) := by
  intro fuel
  induction fuel with
  | zero => intro k _; rfl
  | succ f ih =>
      intro k h
      have h0 := h 0 (by omega)
      rw [Nat.add_zero] at h0
      rw [pollLoop, if_neg h0.1, if_neg h0.2]
      refine ih (k + 1) (fun d hd => ?_)
      have := h (d + 1) (by omega)
      rwa [show k + (d + 1) = k + 1 + d from by omega] at this

theorem pollLoop_success (jobId : String) (getPoll : Nat → TResult)
    (fetchPage : String → TResult) (pageFuel : Nat) :
    ∀ (j fuel k : Nat) (pages : List (List TBlock)), j < fuel →
      (∀ d < j, (getPoll (k + d)).jobStatus ≠ "SUCCEEDED" ∧
        (getPoll (k + d)).jobStatus ≠ "FAILED") →
      (getPoll (k + j)).jobStatus = "SUCCEEDED" →
      TokenChain fetchPage (getPoll (k + j)).nextToken pages →
      pages.length ≤ pageFuel →
      pollLoop jobId getPoll fetchPage pageFuel k fuel =
        some (.ok (_blocks_to_text ((getPoll (k + j)).blocks ++ pages.flatten))) := by
  intro j
  induction j with
  | zero =>
      intro fuel k pages hj hnt hs hch hpf
      match fuel, hj with
      | f + 1, _ =>
        rw [Nat.add_zero] at hs hch ⊢
        rw [pollLoop, if_pos hs,
          collectPages_of_chain fetchPage _ pages hch pageFuel _ hpf]
        simp
  | succ j ih =>
      intro fuel k pages hj hnt hs hch hpf
      match fuel, hj with
      | f + 1, hj =>
        have h0 := hnt 0 (by omega)
        rw [Nat.add_zero] at h0
        rw [pollLoop, if_neg h0.1, if_neg h0.2]
        have hshift : k + (j + 1) = k + 1 + j := by omega
        rw [hshift] at hs hch ⊢
        refine ih f (k + 1) pages (by omega) (fun d hd => ?_) hs hch hpf
        have := hnt (d + 1) (by omega)
        rwa [show k + (d + 1) = k + 1 + d from by omega] at this

/-! ### Claim C7 — deadline elapse raises a timeout distinct from failure -/

/-- C7: if no poll before the deadline returns a terminal status
(`SUCCEEDED` or `FAILED`), the poller raises `TimeoutError` — a condition
distinct from the `RuntimeError` raised when the provider reports the job
`FAILED` — and returns it to the caller without retrying. -/
theorem poller_timeout_distinct (jobId : String) (getPoll : Nat → TResult)
    (fetchPage : String → TResult) (pageFuel fuel : Nat)
    (h : ∀ k < fuel, (getPoll k).jobStatus ≠ "SUCCEEDED" ∧
      (getPoll k).jobStatus ≠ "FAILED") :
    extract_text_from_pdf_s3 jobId getPoll fetchPage pageFuel fuel =
      some (.error (.timedOut jobId)) ∧
      ∀ j m, ExtractErr.timedOut jobId ≠ ExtractErr.jobFailed j m := by
  refine ⟨?_, fun j m hne => ExtractErr.noConfusion hne⟩
  exact pollLoop_timeout jobId getPoll fetchPage pageFuel fuel 0
    (fun d hd => by simpa using h d hd)

theorem poller_timeout_distinct_witness :
    (∀ k < 3, (inProgressPoll k).jobStatus ≠ "SUCCEEDED" ∧
        (inProgressPoll k).jobStatus ≠ "FAILED") ∧
      (extract_text_from_pdf_s3 "job-1" inProgressPoll noPages 0 3 =
          some (.error (.timedOut "job-1")) ∧
        ∀ j m, ExtractErr.timedOut "job-1" ≠ ExtractErr.jobFailed j m) :=
  ⟨by decide,
    poller_timeout_distinct "job-1" inProgressPoll noPages 0 3 (by decide)⟩

/-! ### Claim C8 — success fetches and concatenates all result pages -/

/-- C8: if the first `j` polls return a non-terminal status and poll `j`
(before the deadline) returns `SUCCEEDED` with a finite continuation-token
chain yielding `pages`, the poller fetches the first result page and then
every continuation page, and returns the line text of all pages
concatenated in their original order. -/
theorem poller_success_pagination (jobId : String) (getPoll : Nat → TResult)
    (fetchPage : String → TResult) (pageFuel fuel j : Nat)
    (pages : List (List TBlock))
    (hj : j < fuel)
    (hnt : ∀ k < j, (getPoll k).jobStatus ≠ "SUCCEEDED" ∧
      (getPoll k).jobStatus ≠ "FAILED")
    (hs : (getPoll j).jobStatus = "SUCCEEDED")
    (hch : TokenChain fetchPage (getPoll j).nextToken pages)
    (hpf : pages.length ≤ pageFuel) :
    extract_text_from_pdf_s3 jobId getPoll fetchPage pageFuel fuel =
      some (.ok (_blocks_to_text ((getPoll j).blocks ++ pages.flatten))) := by
  have h := pollLoop_success jobId getPoll fetchPage pageFuel j fuel 0 pages hj
    (fun d hd => by simpa using hnt d hd)
    (by simpa using hs)
    (by rw [Nat.zero_add]; exact hch) hpf
  simpa using h

theorem poller_success_pagination_witness :
    (2 < 3 ∧
      (∀ k < 2, (scenarioPoll k).jobStatus ≠ "SUCCEEDED" ∧
        (scenarioPoll k).jobStatus ≠ "FAILED") ∧
      (scenarioPoll 2).jobStatus = "SUCCEEDED" ∧
      TokenChain scenarioFetch (scenarioPoll 2).nextToken
        [[demoBlock "page two"]] ∧
      ([[demoBlock "page two"]] : List (List TBlock)).length ≤ 1) ∧
      extract_text_from_pdf_s3 "job-2" scenarioPoll scenarioFetch 1 3 =
        some (.ok (_blocks_to_text ((scenarioPoll 2).blocks ++
          ([[demoBlock "page two"]] : List (List TBlock)).flatten))) := by
  have hch : TokenChain scenarioFetch (scenarioPoll 2).nextToken
      [[demoBlock "page two"]] :=
    TokenChain.cons "tok-2" [] (by decide) TokenChain.stop
  exact ⟨⟨by decide, by decide, by decide, hch, by decide⟩,
    poller_success_pagination "job-2" scenarioPoll scenarioFetch 1 3 2
      [[demoBlock "page two"]] (by decide) (by decide) (by decide) hch
      (by decide)⟩

/-! ### Claim C10 — blank input short-circuits everything -/

/-- C10: for every blank (empty or whitespace-only) input text and every
behaviour of the detection and summarization capabilities,
`summarize_text` returns the empty string — in every `pii_mode`, so
whitespace-only input is never blocked, redacted, or summarized. -/
theorem summarize_blank (detect : Detector)
    (converse : List Char → ConverseResponse) (piiMode : String)
    (mask text : List Char) (hb : isBlank text = true) :
    summarize_text detect converse piiMode mask text = .ok "" := by
  rw [summarize_text, if_pos hb]

theorem summarize_blank_witness :
    isBlank " \t\n".toList = true ∧
      summarize_text alwaysErr silentConverse "block" "[REDACTED]".toList
        " \t\n".toList = .ok "" :=
  ⟨by decide,
    summarize_blank alwaysErr silentConverse "block" "[REDACTED]".toList
      " \t\n".toList (by decide)⟩

/-! ### Claim C9 — blocked-by-policy condition

`summarize_text` in `"block"` mode does raise the distinct
`PIIDetectedError` before any summarization call, and `cli.py` catches it
separately from other exceptions.  But the claimed *exit code*
distinctness is false: the CLI exits with status 1 for the blocked
condition (`sys.exit(1)`) and the CPython interpreter also exits with
status 1 for an unhandled generic exception
(see `blocked_exit_code_counterexample`). -/

/-- C9 (amended): when `pii_mode = "block"` and the (non-blank) text
contains detected PII, `summarize_text` raises `PIIDetectedError` before
any summarization call — the result is the blocked error for *every*
behaviour of the summarization capability — and the condition is
distinguishable by the caller from ordinary failures (a distinct exception
type, caught separately by the CLI); the process exit code, however, is 1,
the same as for generic uncaught errors. -/
theorem summarize_block_raises (detect : Detector)
    (converse : List Char → ConverseResponse) (mask text : List Char)
    (hnb : ¬isBlank text = true) (hpii : contains_pii detect text = true) :
    summarize_text detect converse "block" mask text = .error .piiDetected ∧
      (∀ m, (SummErr.piiDetected : SummErr) ≠ .redactionFailed m) ∧
      cli_exit_code (.error .piiDetected) = 1 := by
  refine ⟨?_, fun m h => SummErr.noConfusion h, rfl⟩
  rw [summarize_text, if_neg hnb, if_pos rfl, hpii]
  simp

theorem summarize_block_raises_witness :
    (¬isBlank "hello".toList = true ∧
        contains_pii alwaysPII "hello".toList = true) ∧
      (summarize_text alwaysPII silentConverse "block" "[REDACTED]".toList
          "hello".toList = .error .piiDetected ∧
        (∀ m, (SummErr.piiDetected : SummErr) ≠ .redactionFailed m) ∧
        cli_exit_code (.error .piiDetected) = 1) := by
  have hc : _chunk_text_simple "hello".toList = [("hello".toList, 0)] :=
    chunk_single "hello".toList 3999 (by decide) (by decide)
  have hpii : contains_pii alwaysPII "hello".toList = true := by
    rw [contains_pii, hc]
    decide
  exact ⟨⟨by decide, hpii⟩,
    summarize_block_raises alwaysPII silentConverse "[REDACTED]".toList
      "hello".toList (by decide) hpii⟩

/-- C9 counterexample: the blocked condition and a generic error produce
the *same* process exit code.  With PII detected in `"block"` mode the CLI
catches `PIIDetectedError` and exits 1; with a detector failure in
`"redact"` mode the `RuntimeError` propagates uncaught and CPython also
exits 1 — the exit code does not distinguish the blocked condition from
generic errors. -/
theorem blocked_exit_code_counterexample :
    summarize_text alwaysPII silentConverse "block" "[REDACTED]".toList
        "hello".toList = .error .piiDetected ∧
      summarize_text alwaysErr silentConverse "redact" "[REDACTED]".toList
        "hello".toList = .error (.redactionFailed redactFailMsg) ∧
      cli_exit_code (.error .piiDetected) =
        cli_exit_code (.error (.redactionFailed redactFailMsg)) := by
  have hc : _chunk_text_simple "hello".toList = [("hello".toList, 0)] :=
    chunk_single "hello".toList 3999 (by decide) (by decide)
  refine ⟨?_, ?_, rfl⟩
  · have hpii : contains_pii alwaysPII "hello".toList = true := by
      rw [contains_pii, hc]; decide
    rw [summarize_text, if_neg (by decide), if_pos rfl, hpii]
    simp
  · have herr : redact_pii alwaysErr "hello".toList "[REDACTED]".toList =
        .error redactFailMsg :=
      redact_fail_closed alwaysErr _ _
        (by rw [hc]
            exact ⟨("hello".toList, 0), List.mem_singleton_self _, by decide,
              "service unreachable", rfl⟩)
    rw [summarize_text, if_neg (by decide), if_neg (by decide), if_pos rfl,
      herr]

end DocSummarizer
